import Mathlib

/-!
Shallow embedding of the pipeline adapter library in src/lib/processing.h.

A Flow over an in-memory container is denoted by the Lean list of the
elements its begin/end cursor pair traverses.  Each adapter below is
translated from the corresponding class in processing.h; comments name the
C++ member the definition mirrors.
-/

namespace AdapterLib

/-- KV (processing.h): a pair with a designated key and value. -/
structure KV (K V : Type) where
  key : K
  value : V
deriving DecidableEq

/-- JoinResult (processing.h): a base value and an optional joined value. -/
structure JoinResult (B J : Type) where
  base : B
  joined : Option J
deriving DecidableEq

/-- AsVectorAdapter::operator(): drains the flow, pushing each element into a
vector in traversal order. -/
def asVector {α : Type} (xs : List α) : List α :=
  xs.foldl (fun acc e => acc ++ [e]) []

/-- FilteredFlow::Iterator::skip_unmatched: advance the upstream cursor while
the predicate rejects the current element. -/
def skip_unmatched {α : Type} (p : α → Bool) (xs : List α) : List α :=
  xs.dropWhile (fun x => !p x)

/-- Traversal of FilteredFlow: the constructor runs skip_unmatched once; each
dereference yields the current upstream element; operator++ advances the
upstream cursor and runs skip_unmatched again. -/
def filteredFlow {α : Type} (p : α → Bool) (xs : List α) : List α :=
  match h : skip_unmatched p xs with
  | [] => []
  | x :: rest => x :: filteredFlow p rest
termination_by xs.length
decreasing_by
  have hle : (List.dropWhile (fun x => !p x) xs).length ≤ xs.length :=
    (@List.dropWhile_suffix _ xs (fun x => !p x)).sublist.length_le
  simp only [skip_unmatched] at h
  rw [h] at hle
  simpa using Nat.lt_of_lt_of_le (Nat.lt_succ_self rest.length) hle

/-- Traversal of TransformedFlow: operator* applies the function to the
upstream element at read time; operator++ advances only the upstream cursor. -/
def transformedFlow {α β : Type} (f : α → β) : List α → List β
  | [] => []
  | x :: xs => f x :: transformedFlow f xs

/-!
SplitFlow (processing.h).  A text chunk is modeled as the list of its
characters; the delimiter string as the list of delimiter characters.
SplitFlow::Iterator::next_token, viewed on the still-unscanned suffix of the
current chunk (the characters from current_pos_ on), does one of two things:
find_first_of finds no delimiter (end_pos == npos), so the token is the whole
remaining suffix and current_pos_ becomes npos, ending the chunk; or it finds
one, so the token is the prefix before the delimiter and scanning resumes just
past it.
-/

/-- The tokens next_token emits from one chunk: takeWhile/dropWhile mirror
find_first_of scanning from current_pos_. -/
def chunkTokens (delimiters : List Char) (content : List Char) : List (List Char) :=
  match h : content.dropWhile (fun c => !delimiters.contains c) with
  | [] => [content.takeWhile (fun c => !delimiters.contains c)]
  | _ :: r =>
      content.takeWhile (fun c => !delimiters.contains c) :: chunkTokens delimiters r
termination_by content.length
decreasing_by
  have hle : (content.dropWhile (fun c => !delimiters.contains c)).length ≤ content.length :=
    (@List.dropWhile_suffix _ content (fun c => !delimiters.contains c)).sublist.length_le
  rw [h] at hle
  simp only [List.length_cons] at hle
  omega

/-- Traversal of SplitFlow over a nonempty upstream: after the last token of a
chunk (current_pos_ == npos), the next next_token call advances the upstream
cursor and scans the new chunk within the same call, so each chunk contributes
its tokens in upstream order.  (Over an empty upstream the C++ begin cursor
starts with current_pos_ == 0 and so never compares equal to the end cursor;
every theorem below traverses a nonempty upstream.) -/
def splitFlowTokens (delimiters : List Char) : List (List Char) → List (List Char)
  | [] => []
  | c :: cs => chunkTokens delimiters c ++ splitFlowTokens delimiters cs

/-!
WriteAdapter (processing.h).  The output stream is modeled as the list of
characters written to it; an element's textual form is the character list of
its decimal representation.
-/

/-- One iteration of WriteAdapter::operator(): write the separator before
every element except the first, then the element itself; record that an
element was seen.  State: (stream contents, first, hasElements). -/
def writeStep (delimiter : Char) (st : List Char × Bool × Bool) (e : List Char) :
    List Char × Bool × Bool :=
  ((if st.2.1 then st.1 else st.1 ++ [delimiter]) ++ e, false, true)

/-- WriteAdapter::operator(): run the loop, then flush one trailing separator
when at least one element was written. -/
def writeRun (delimiter : Char) (elems : List (List Char)) : List Char :=
  let st := elems.foldl (writeStep delimiter) ([], true, false)
  if st.2.2 then st.1 ++ [delimiter] else st.1

/-!
SplitExpected (processing.h).  std::expected is modeled as Except: an ok
value or an error payload.
-/

/-- Shared loop body of SplitExpectedBaseAdapter::operator() and
SplitExpectedTransformAdapter::split_existing_expected: a success payload is
pushed onto the values vector, an error payload onto the errors vector. -/
def splitExpectedStep {α ε : Type} (st : List ε × List α) (x : Except ε α) :
    List ε × List α :=
  match x with
  | Except.ok v => (st.1, st.2 ++ [v])
  | Except.error e => (st.1 ++ [e], st.2)

/-- SplitExpectedBaseAdapter::operator(): drain the upstream once, then return
the pair (errors flow, values flow) - errors first. -/
def splitExpectedBase {α ε : Type} (input : List (Except ε α)) : List ε × List α :=
  input.foldl splitExpectedStep ([], [])

/-- SplitExpectedTransformAdapter::split_existing_expected: same single pass
over an already-fallible upstream. -/
def split_existing_expected {α ε : Type} (input : List (Except ε α)) : List ε × List α :=
  input.foldl splitExpectedStep ([], [])

/-- SplitExpectedTransformAdapter::operator() on an upstream whose elements
are already expected values: the constexpr dispatch selects
split_existing_expected, and the stored function func_ is never referenced
(func may have any type at all). -/
def splitExpectedTransform {α ε β : Type} (func : β) (input : List (Except ε α)) :
    List ε × List α :=
  split_existing_expected input

/-- The argument-less SplitExpected(): the same adapter constructed with the
identity lambda. -/
def splitExpectedNoFunc {α ε : Type} (input : List (Except ε α)) : List ε × List α :=
  splitExpectedTransform (fun x : Except ε α => x) input

/-!
Join (processing.h).  The std::unordered_multimap built from the right flow
is modeled as the function taking a key to the list of mapped values that
equal_range yields for it.  libstdc++ links a newly emplaced node in front of
the already-present nodes with an equivalent key, so equal_range lists the
values bound to one key newest-first, i.e. in reverse insertion order.
-/

/-- unordered_multimap::emplace: bind v to key k, in front of the values
already bound to k. -/
def mmEmplace {K V : Type} [DecidableEq K] (m : K → List V) (k : K) (v : V) :
    K → List V :=
  fun q => if q = k then v :: m q else m q

/-- The successive values a repeatedly moved-from variable passes through:
the original value, then the remnant one move leaves behind, then the
remnant of that remnant, and so on. -/
def moveIterates {L : Type} (movedFrom : L → L) (l : L) : Nat → List L
  | 0 => []
  | n + 1 => l :: moveIterates movedFrom (movedFrom l) n

/-- The rows one left element emits in the match loop of
JoinAdapter::operator(): each row's base is built from
std::forward<LeftValue>(left_value) with LeftValue a non-reference type, so
each push is a move out of the same left_value variable, repeated once per
match.  The first row receives the element's value; every later row receives
the remnant the previous move left in the variable.  movedFrom models that
remnant: the identity for a trivially copyable left type, whose move is a
copy, and constantly the empty string for a libstdc++ string, whose move
constructor empties its source. -/
def joinRows {L R : Type} (movedFrom : L → L) (l : L) :
    List R → List (JoinResult L R)
  | [] => []
  | r :: rest => ⟨l, some r⟩ :: joinRows movedFrom (movedFrom l) rest

/-- JoinAdapter::operator(): build the multimap from every right element
keyed by right_key, then scan the left flow once; a left element with no
right match emits one row with an absent joined value (one move out of
left_value, so the row receives its full value), otherwise one row per match
in equal_range order, the base moved out of left_value again at every
match. -/
def joinSelector {L R K : Type} [DecidableEq K] (movedFrom : L → L)
    (right : List R) (left_key : L → K) (right_key : R → K) (left : List L) :
    List (JoinResult L R) :=
  let right_map := right.foldl (fun m r => mmEmplace m (right_key r) r) (fun _ => [])
  left.flatMap (fun l =>
    match right_map (left_key l) with
    | [] => [⟨l, none⟩]
    | ms => joinRows movedFrom l ms)

/-- SimpleJoinAdapter::operator(): the paired-KeyValue form; the multimap
maps right_value.key to right_value.value and the emitted base is
left_value.value - an lvalue member access, hence a copy at every match, so
this form never leaves a moved-from base. -/
def joinKV {K V1 V2 : Type} [DecidableEq K] (right : List (KV K V2))
    (left : List (KV K V1)) : List (JoinResult V1 V2) :=
  let right_map := right.foldl (fun m r => mmEmplace m r.key r.value) (fun _ => [])
  left.flatMap (fun l =>
    match right_map l.key with
    | [] => [⟨l.value, none⟩]
    | ms => ms.map (fun v => ⟨l.value, some v⟩))

/-!
AggregateByKeyAdapter (processing.h).  The std::unordered_map is modeled as
the function from a key to the optional accumulator bound to it (none when
the map holds no entry for that key); the processed_keys unordered_set as the
list of keys inserted so far.
-/

/-- The aggregation pass of the generic (non-string) branch: for each element
in input order, a key absent from the map (find == end) is first bound to the
initial value, then the element is folded into its key's accumulator in
place; so the accumulator folded from is the existing binding, or the initial
value when there was none. -/
def aggPass {V K A : Type} [DecidableEq K] (initial_value : A)
    (aggregator : A → V → A) (key_selector : V → K) (input : List V) :
    K → Option A :=
  input.foldl (fun m v =>
    fun q => if q = key_selector v then
        some (aggregator ((m (key_selector v)).getD initial_value) v)
      else m q)
    (fun _ => none)

/-- The emission pass shared by both branches: walk the original input again,
emitting (key, accumulator) at each key's first occurrence, tracked by the
processed_keys set.  Every emitted key was bound during the aggregation pass,
so the default for an absent binding is never read. -/
def emitPass {V K A : Type} [DecidableEq K] (initial_value : A)
    (key_selector : V → K) (m : K → Option A) :
    List V → List K → List (K × A)
  | [], _ => []
  | v :: rest, processed =>
    if key_selector v ∈ processed then
      emitPass initial_value key_selector m rest processed
    else
      (key_selector v, (m (key_selector v)).getD initial_value) ::
        emitPass initial_value key_selector m rest (key_selector v :: processed)

/-- AggregateByKeyAdapter::operator(), generic branch: aggregate in one pass,
then emit in first-occurrence order. -/
def aggregateByKey {V K A : Type} [DecidableEq K] (initial_value : A)
    (aggregator : A → V → A) (key_selector : V → K) (input : List V) :
    List (K × A) :=
  emitPass initial_value key_selector
    (aggPass initial_value aggregator key_selector input) input []

/-- First loop of the string branch of AggregateByKeyAdapter::operator():
rebind every element, used as its own key, to the initial value. -/
def seedPass {A : Type} (initial_value : A) (input : List String) :
    String → Option A :=
  input.foldl (fun m v => fun q => if q = v then some initial_value else m q)
    (fun _ => none)

/-- Second loop of the string branch: fold every element into its own key's
accumulator.  Every key is already bound by the seeding pass, so the default
for an absent binding is never read. -/
def aggPassStr {A : Type} (initial_value : A) (aggregator : A → String → A)
    (input : List String) : String → Option A :=
  input.foldl (fun m v =>
    fun q => if q = v then some (aggregator ((m v).getD initial_value) v)
      else m q)
    (seedPass initial_value input)

/-- AggregateByKeyAdapter::operator(), string branch: seed, aggregate, then
emit in first-occurrence order.  The element itself is the key throughout;
key_selector_ is never referenced. -/
def aggregateByKeyStr {A : Type} (initial_value : A)
    (aggregator : A → String → A) (input : List String) : List (String × A) :=
  emitPass initial_value (fun v => v) (aggPassStr initial_value aggregator input)
    input []

/-- AggregateByKeyAdapter::operator() on a flow of strings: the constexpr
dispatch on the element type selects the string branch, which never
references the stored key_selector_. -/
def aggregateByKeyOnStrings {A K : Type} (initial_value : A)
    (aggregator : A → String → A) (key_selector : String → K)
    (input : List String) : List (String × A) :=
  aggregateByKeyStr initial_value aggregator input

/-- The first-occurrence subsequence of a list: each value is kept at its
first position and its later duplicates are dropped. -/
def firstOccurrences {K : Type} [DecidableEq K] : List K → List K
  | [] => []
  | k :: ks => k :: firstOccurrences (ks.filter (fun q => q ≠ k))
termination_by l => l.length
decreasing_by
  simp only [List.length_cons]
  exact Nat.lt_succ_of_le (List.length_filter_le _ _)

theorem asVector_eq_id {α : Type} (xs : List α) : asVector xs = xs := by
  suffices h : ∀ acc : List α, xs.foldl (fun acc e => acc ++ [e]) acc = acc ++ xs by
    simpa using h []
  induction xs with
  | nil => intro acc; simp [List.foldl]
  | cons x xs ih => intro acc; simp [List.foldl, ih]

theorem skip_unmatched_eq_nil {α : Type} {p : α → Bool} {xs : List α}
    (h : skip_unmatched p xs = []) : xs.filter p = [] := by
  induction xs with
  | nil => simp
  | cons y ys ih =>
    by_cases hy : p y
    · simp [skip_unmatched, List.dropWhile, hy] at h
    · simp only [skip_unmatched, List.dropWhile, hy] at h
      simp only [Bool.not_false] at h
      simp [List.filter, hy, ih (by simpa [skip_unmatched] using h)]

theorem skip_unmatched_eq_cons {α : Type} {p : α → Bool} {xs : List α}
    {x : α} {rest : List α} (h : skip_unmatched p xs = x :: rest) :
    xs.filter p = x :: rest.filter p := by
  induction xs with
  | nil => simp [skip_unmatched] at h
  | cons y ys ih =>
    by_cases hy : p y
    · simp only [skip_unmatched, List.dropWhile, hy, Bool.not_true] at h
      cases h
      simp [List.filter, hy]
    · simp only [skip_unmatched, List.dropWhile, hy, Bool.not_false] at h
      have := ih (by simpa [skip_unmatched] using h)
      simp [List.filter, hy, this]

theorem filteredFlow_eq_filter_aux {α : Type} (p : α → Bool) :
    ∀ (n : Nat) (xs : List α), xs.length ≤ n → filteredFlow p xs = xs.filter p := by
  intro n
  induction n with
  | zero =>
    intro xs hx
    have hnil : xs = [] := List.eq_nil_of_length_eq_zero (Nat.le_zero.mp hx)
    subst hnil
    rw [filteredFlow]
    split
    next => rfl
    next x rest h => simp [skip_unmatched] at h
  | succ n ih =>
    intro xs hx
    rw [filteredFlow]
    split
    next h => exact (skip_unmatched_eq_nil h).symm
    next x rest h =>
      have hlen : rest.length ≤ n := by
        have hle : (List.dropWhile (fun x => !p x) xs).length ≤ xs.length :=
          (@List.dropWhile_suffix _ xs (fun x => !p x)).sublist.length_le
        simp only [skip_unmatched] at h
        rw [h] at hle
        simp only [List.length_cons] at hle
        omega
      rw [ih rest hlen, skip_unmatched_eq_cons h]

theorem filteredFlow_eq_filter {α : Type} (p : α → Bool) (xs : List α) :
    filteredFlow p xs = xs.filter p :=
  filteredFlow_eq_filter_aux p xs.length xs le_rfl

/-- C5: materializing Filter(p) over any source yields exactly the
subsequence of the materialized source whose elements satisfy p, in their
original relative order. -/
theorem filter_materializes_to_subsequence {α : Type} (p : α → Bool) (xs : List α) :
    asVector (filteredFlow p xs) = (asVector xs).filter p := by
  rw [asVector_eq_id, asVector_eq_id, filteredFlow_eq_filter]

theorem transformedFlow_eq_map {α β : Type} (f : α → β) (xs : List α) :
    transformedFlow f xs = xs.map f := by
  induction xs with
  | nil => rfl
  | cons x xs ih => simp [transformedFlow, ih]

/-- C6: Transform(g) applied to Transform(f) applied to a sequence is
element-wise equal to Transform(x => g(f(x))) applied to the same sequence. -/
theorem transform_composition {α β γ : Type} (f : α → β) (g : β → γ) (xs : List α) :
    transformedFlow g (transformedFlow f xs) = transformedFlow (fun x => g (f x)) xs := by
  rw [transformedFlow_eq_map, transformedFlow_eq_map, transformedFlow_eq_map, List.map_map]
  rfl

theorem chunkTokens_eq_single {delimiters content : List Char}
    (h : content.dropWhile (fun c => !delimiters.contains c) = []) :
    chunkTokens delimiters content =
      [content.takeWhile (fun c => !delimiters.contains c)] := by
  rw [chunkTokens]
  split
  next => rfl
  next t r h2 => rw [h] at h2; cases h2

theorem chunkTokens_eq_cons {delimiters content : List Char} {y : Char} {r : List Char}
    (h : content.dropWhile (fun c => !delimiters.contains c) = y :: r) :
    chunkTokens delimiters content =
      content.takeWhile (fun c => !delimiters.contains c) :: chunkTokens delimiters r := by
  rw [chunkTokens]
  split
  next h2 => rw [h] at h2; cases h2
  next t r2 h2 =>
    rw [h] at h2
    cases h2
    rfl

theorem chunkTokens_nil (delimiters : List Char) : chunkTokens delimiters [] = [[]] := by
  have := @chunkTokens_eq_single delimiters [] rfl
  simpa using this

theorem chunkTokens_cons_delim {delimiters : List Char} {x : Char}
    (hx : delimiters.contains x = true) (zs : List Char) :
    chunkTokens delimiters (x :: zs) = [] :: chunkTokens delimiters zs := by
  have hmem : x ∈ delimiters := by simpa using hx
  have hdrop : (x :: zs).dropWhile (fun c => !delimiters.contains c) = x :: zs := by
    simp [List.dropWhile, hmem]
  rw [chunkTokens_eq_cons hdrop]
  simp [List.takeWhile, hmem]

theorem chunkTokens_ne_nil (delimiters content : List Char) :
    chunkTokens delimiters content ≠ [] := by
  cases h : content.dropWhile (fun c => !delimiters.contains c) with
  | nil => rw [chunkTokens_eq_single h]; simp
  | cons y r => rw [chunkTokens_eq_cons h]; simp

theorem chunkTokens_cons_nondelim {delimiters : List Char} {x : Char}
    (hx : delimiters.contains x = false) (zs : List Char) :
    chunkTokens delimiters (x :: zs) =
      (x :: (chunkTokens delimiters zs).headI) :: (chunkTokens delimiters zs).tail := by
  have hmem : x ∉ delimiters := by simpa using hx
  have hdrop : (x :: zs).dropWhile (fun c => !delimiters.contains c) =
      zs.dropWhile (fun c => !delimiters.contains c) := by
    simp [List.dropWhile, hmem]
  have htake : (x :: zs).takeWhile (fun c => !delimiters.contains c) =
      x :: zs.takeWhile (fun c => !delimiters.contains c) := by
    simp [List.takeWhile, hmem]
  cases h : zs.dropWhile (fun c => !delimiters.contains c) with
  | nil =>
    rw [chunkTokens_eq_single (hdrop.trans h), chunkTokens_eq_single h, htake]
    simp
  | cons y r =>
    rw [chunkTokens_eq_cons (hdrop.trans h), chunkTokens_eq_cons h, htake]
    simp

/-- Scanning distributes over a delimiter occurrence: the tokens of
xs ++ d1 :: ys are the tokens of xs followed by the tokens of ys. -/
theorem chunkTokens_append_delim {delimiters : List Char} {d1 : Char}
    (hd : delimiters.contains d1 = true) (xs ys : List Char) :
    chunkTokens delimiters (xs ++ d1 :: ys) =
      chunkTokens delimiters xs ++ chunkTokens delimiters ys := by
  induction xs with
  | nil =>
    rw [List.nil_append, chunkTokens_cons_delim hd, chunkTokens_nil]
    rfl
  | cons x xs ih =>
    by_cases hx : delimiters.contains x = true
    · rw [List.cons_append, chunkTokens_cons_delim hx, chunkTokens_cons_delim hx, ih,
        List.cons_append]
    · have hx2 : delimiters.contains x = false := by simpa using hx
      obtain ⟨t, ts, hts⟩ := List.exists_cons_of_ne_nil (chunkTokens_ne_nil delimiters xs)
      rw [List.cons_append, chunkTokens_cons_nondelim hx2, chunkTokens_cons_nondelim hx2,
        ih, hts, List.cons_append]
      simp

theorem chunkTokens_length (delimiters content : List Char) :
    (chunkTokens delimiters content).length =
      content.countP (fun c => delimiters.contains c) + 1 := by
  induction content with
  | nil => rw [chunkTokens_nil]; simp
  | cons x zs ih =>
    by_cases hx : delimiters.contains x = true
    · have hmem : x ∈ delimiters := by simpa using hx
      rw [chunkTokens_cons_delim hx]
      simp [ih, List.countP_cons, hmem]
    · have hx2 : delimiters.contains x = false := by simpa using hx
      have hmem : x ∉ delimiters := by simpa using hx2
      obtain ⟨t, ts, hts⟩ := List.exists_cons_of_ne_nil (chunkTokens_ne_nil delimiters zs)
      rw [chunkTokens_cons_nondelim hx2, hts]
      rw [hts] at ih
      simp only [List.length_cons] at ih
      simp [List.headI, List.tail, List.countP_cons, hmem, ih]

/-- C4: splitting the chunk a.b.c on the delimiter set containing the period
yields exactly the tokens a, b, c; splitting a..b yields a, the empty token,
b; in general an empty token is produced between two consecutive delimiters
and at a chunk end that is a delimiter, and the token count of a chunk is
always the number of delimiter occurrences plus one (no token is ever
removed by Split itself). -/
theorem split_tokenization :
    (splitFlowTokens ['.'] [['a', '.', 'b', '.', 'c']] =
        [['a'], ['b'], ['c']])
  ∧ (splitFlowTokens ['.'] [['a', '.', '.', 'b']] =
        [['a'], [], ['b']])
  ∧ (∀ (delimiters xs ys : List Char) (d1 d2 : Char),
       delimiters.contains d1 = true → delimiters.contains d2 = true →
       chunkTokens delimiters (xs ++ d1 :: d2 :: ys) =
         chunkTokens delimiters xs ++ [[]] ++ chunkTokens delimiters ys)
  ∧ (∀ (delimiters xs : List Char) (d1 : Char),
       delimiters.contains d1 = true →
       chunkTokens delimiters (xs ++ [d1]) = chunkTokens delimiters xs ++ [[]])
  ∧ (∀ (delimiters content : List Char),
       (chunkTokens delimiters content).length =
         content.countP (fun c => delimiters.contains c) + 1) := by
  refine ⟨?_, ?_, ?_, ?_, ?_⟩
  · simp [splitFlowTokens, chunkTokens_nil, chunkTokens_cons_delim,
      chunkTokens_cons_nondelim]
  · simp [splitFlowTokens, chunkTokens_nil, chunkTokens_cons_delim,
      chunkTokens_cons_nondelim]
  · intro delimiters xs ys d1 d2 h1 h2
    rw [chunkTokens_append_delim h1, chunkTokens_cons_delim h2]
    simp
  · intro delimiters xs d1 h1
    rw [chunkTokens_append_delim h1, chunkTokens_nil]
  · exact chunkTokens_length

/-- Witness for split_tokenization: its conditional conjuncts applied to the
chunk a..b split on the period. -/
theorem split_tokenization_witness :
    chunkTokens ['.'] (['a'] ++ '.' :: '.' :: ['b']) =
      chunkTokens ['.'] ['a'] ++ [[]] ++ chunkTokens ['.'] ['b'] :=
  split_tokenization.2.2.1 ['.'] ['a'] ['b'] '.' '.'
    (by decide) (by decide)

theorem writeRun_fold_rest (delimiter : Char) :
    ∀ (rest : List (List Char)) (os : List Char),
      rest.foldl (writeStep delimiter) (os, false, true) =
        (os ++ (rest.map (fun e => delimiter :: e)).flatten, false, true) := by
  intro rest
  induction rest with
  | nil => intro os; simp [List.foldl]
  | cons r rest ih =>
    intro os
    simp only [List.foldl, writeStep]
    rw [ih]
    simp

theorem flatten_sep_shift (delimiter : Char) (rest : List (List Char)) :
    (rest.map (fun e => delimiter :: e)).flatten ++ [delimiter] =
      delimiter :: (rest.map (fun e => e ++ [delimiter])).flatten := by
  induction rest with
  | nil => simp
  | cons r rest ih => simp [ih]

/-- C8: the separator-appending write sink emits every element followed by
the separator, including the last; the sequence 1,2,3,4,5 with separator
bar yields exactly 1|2|3|4|5| and the empty sequence yields the empty
output. -/
theorem write_sink_trailing_separator :
    (writeRun '|' (([1, 2, 3, 4, 5] : List Nat).map (fun n => (toString n).toList)) =
      "1|2|3|4|5|".toList)
  ∧ (∀ d : Char, writeRun d [] = [])
  ∧ (∀ (d : Char) (es : List (List Char)),
      writeRun d es = (es.map (fun e => e ++ [d])).flatten) := by
  refine ⟨?_, ?_, ?_⟩
  · decide
  · intro d; rfl
  · intro d es
    cases es with
    | nil => rfl
    | cons e rest =>
      simp only [writeRun, List.foldl, writeStep, if_pos rfl]
      rw [writeRun_fold_rest]
      simp only [List.nil_append, if_pos rfl]
      rw [List.append_assoc, flatten_sep_shift]
      simp

theorem splitExpected_fold {α ε : Type} :
    ∀ (input : List (Except ε α)) (es : List ε) (vs : List α),
      input.foldl splitExpectedStep (es, vs) =
        (es ++ input.filterMap (fun x => match x with
            | Except.error e => some e
            | Except.ok _ => none),
         vs ++ input.filterMap (fun x => match x with
            | Except.ok v => some v
            | Except.error _ => none)) := by
  intro input
  induction input with
  | nil => intro es vs; simp [List.foldl]
  | cons x rest ih =>
    intro es vs
    cases x with
    | ok v =>
      simp only [List.foldl, splitExpectedStep]
      rw [ih]
      simp [List.filterMap_cons]
    | error e =>
      simp only [List.foldl, splitExpectedStep]
      rw [ih]
      simp [List.filterMap_cons]

theorem splitExpected_length {α ε : Type} (input : List (Except ε α)) :
    (input.filterMap (fun x => match x with
        | Except.error e => some e
        | Except.ok _ => none)).length +
      (input.filterMap (fun x => match x with
        | Except.ok v => some v
        | Except.error _ => none)).length = input.length := by
  induction input with
  | nil => simp
  | cons x rest ih =>
    cases x with
    | ok v => simp [List.filterMap_cons]; omega
    | error e => simp [List.filterMap_cons]; omega

/-- C3: SplitExpected partitions a fallible sequence into (errors, values),
errors first; the sizes add up to the input size, the errors flow holds
exactly the error payloads in original relative order and the values flow
exactly the success payloads in original relative order; the dedicated base
adapter and the transform adapter's split of an existing expected sequence
agree. -/
theorem split_expected_partition {α ε : Type} (input : List (Except ε α)) :
    ((splitExpectedBase input).1.length + (splitExpectedBase input).2.length
        = input.length)
  ∧ ((splitExpectedBase input).1 = input.filterMap (fun x => match x with
        | Except.error e => some e
        | Except.ok _ => none))
  ∧ ((splitExpectedBase input).2 = input.filterMap (fun x => match x with
        | Except.ok v => some v
        | Except.error _ => none))
  ∧ (split_existing_expected input = splitExpectedBase input) := by
  have hfold := splitExpected_fold input [] []
  have h1 : splitExpectedBase input =
      (input.filterMap (fun x => match x with
        | Except.error e => some e
        | Except.ok _ => none),
       input.filterMap (fun x => match x with
        | Except.ok v => some v
        | Except.error _ => none)) := by
    simpa [splitExpectedBase] using hfold
  refine ⟨?_, ?_, ?_, rfl⟩
  · rw [h1]; exact splitExpected_length input
  · rw [h1]
  · rw [h1]

/-- C9: SplitExpected(f) over a sequence of already-fallible results never
applies f: it equals the argument-less SplitExpected() and the base splitting
adapter on the same input, for every f of every type. -/
theorem split_expected_transform_ignores_func {α ε β : Type}
    (func : β) (input : List (Except ε α)) :
    splitExpectedTransform func input = splitExpectedNoFunc input
  ∧ splitExpectedTransform func input = splitExpectedBase input :=
  ⟨rfl, rfl⟩

theorem mmBuild_apply {R K V : Type} [DecidableEq K] (keyOf : R → K) (valOf : R → V) :
    ∀ (right : List R) (m0 : K → List V) (k : K),
      (right.foldl (fun m r => mmEmplace m (keyOf r) (valOf r)) m0) k =
        ((right.filter (fun r => keyOf r = k)).map valOf).reverse ++ m0 k := by
  intro right
  induction right with
  | nil => intro m0 k; simp
  | cons r rest ih =>
    intro m0 k
    simp only [List.foldl]
    rw [ih]
    by_cases h : keyOf r = k
    · simp [mmEmplace, List.filter_cons, h]
    · simp [mmEmplace, List.filter_cons, h, Ne.symm h]

theorem joinSelector_eq {L R K : Type} [DecidableEq K] (movedFrom : L → L)
    (right : List R) (left_key : L → K) (right_key : R → K) (left : List L) :
    joinSelector movedFrom right left_key right_key left =
      left.flatMap (fun l =>
        match (right.filter (fun r => right_key r = left_key l)).reverse with
        | [] => [(⟨l, none⟩ : JoinResult L R)]
        | ms => joinRows movedFrom l ms) := by
  unfold joinSelector
  have hmap : ∀ l : L,
      (right.foldl (fun m r => mmEmplace m (right_key r) r) (fun _ => [])) (left_key l) =
        (right.filter (fun r => right_key r = left_key l)).reverse := by
    intro l
    have := mmBuild_apply right_key (fun r => r) right (fun _ => []) (left_key l)
    simpa using this
  simp only [hmap]

theorem joinKV_eq {K V1 V2 : Type} [DecidableEq K] (right : List (KV K V2))
    (left : List (KV K V1)) :
    joinKV right left =
      left.flatMap (fun l =>
        match ((right.filter (fun r => r.key = l.key)).map (fun r => r.value)).reverse with
        | [] => [(⟨l.value, none⟩ : JoinResult V1 V2)]
        | ms => ms.map (fun v => ⟨l.value, some v⟩)) := by
  unfold joinKV
  have hmap : ∀ l : KV K V1,
      (right.foldl (fun m r => mmEmplace m r.key r.value) (fun _ => [])) l.key =
        ((right.filter (fun r => r.key = l.key)).map (fun r => r.value)).reverse := by
    intro l
    have := mmBuild_apply (fun r : KV K V2 => r.key) (fun r => r.value) right
      (fun _ => []) l.key
    simpa using this
  simp only [hmap]

/-- Replicated base values of the rows a matched left element contributes. -/
theorem map_base_mk {B J : Type} (b : B) (js : List J) :
    (js.map (fun j => (⟨b, some j⟩ : JoinResult B J))).map (fun row => row.base) =
      List.replicate js.length b := by
  induction js with
  | nil => rfl
  | cons j js ih => simp [ih, List.replicate_succ]

theorem map_isNone_mk {B J : Type} (b : B) (js : List J) :
    (js.map (fun j => (⟨b, some j⟩ : JoinResult B J))).map
        (fun row => row.joined.isNone) =
      List.replicate js.length false := by
  induction js with
  | nil => rfl
  | cons j js ih => simp [ih, List.replicate_succ]

/-- The row group one left element contributes, described by its match list. -/
theorem join_group_shape {B J : Type} (b : B) (ms : List J) :
    (match ms with
      | [] => [(⟨b, none⟩ : JoinResult B J)]
      | ms => ms.map (fun j => ⟨b, some j⟩)).length = max ms.length 1
  ∧ (match ms with
      | [] => [(⟨b, none⟩ : JoinResult B J)]
      | ms => ms.map (fun j => ⟨b, some j⟩)).map (fun row : JoinResult B J => row.base) =
        List.replicate (max ms.length 1) b
  ∧ (match ms with
      | [] => [(⟨b, none⟩ : JoinResult B J)]
      | ms => ms.map (fun j => ⟨b, some j⟩)).map
          (fun row : JoinResult B J => row.joined.isNone) =
        List.replicate (max ms.length 1) (decide (ms.length = 0)) := by
  cases ms with
  | nil => exact ⟨rfl, rfl, rfl⟩
  | cons m rest =>
    have hmax : max (m :: rest).length 1 = (m :: rest).length :=
      Nat.max_eq_left (Nat.succ_le_succ (Nat.zero_le _))
    have hdec : decide ((m :: rest).length = 0) = false := by simp
    refine ⟨?_, ?_, ?_⟩
    · rw [hmax]; simp
    · rw [hmax]; exact map_base_mk b (m :: rest)
    · rw [hmax, hdec]; exact map_isNone_mk b (m :: rest)

theorem flatMap_congr_left {α β : Type} {l : List α} {f g : α → List β}
    (h : ∀ a ∈ l, f a = g a) : l.flatMap f = l.flatMap g := by
  induction l with
  | nil => rfl
  | cons a as ih =>
    simp only [List.flatMap_cons]
    rw [h a (by simp), ih (fun x hx => h x (by simp [hx]))]

/-- The rows of one multi-match group: one row per match, the joined column is
the match list (every joined value present), and the base column walks the
successive moved-from remnants, starting with the left element itself. -/
theorem joinRows_shape {L R : Type} (movedFrom : L → L) :
    ∀ (ms : List R) (l : L),
      (joinRows movedFrom l ms).length = ms.length
    ∧ (joinRows movedFrom l ms).map (fun row => row.joined) = ms.map some
    ∧ (joinRows movedFrom l ms).map (fun row => row.joined.isNone) =
        List.replicate ms.length false
    ∧ (joinRows movedFrom l ms).map (fun row => row.base) =
        moveIterates movedFrom l ms.length := by
  intro ms
  induction ms with
  | nil => intro l; exact ⟨rfl, rfl, rfl, rfl⟩
  | cons r rest ih =>
    intro l
    obtain ⟨h1, h2, h3, h4⟩ := ih (movedFrom l)
    refine ⟨?_, ?_, ?_, ?_⟩
    · simp [joinRows, h1]
    · simp [joinRows, h2]
    · simp [joinRows, h3, List.replicate_succ]
    · simp [joinRows, h4, moveIterates]

/-- The row group one left element contributes in the selector-key form,
described by its match list. -/
theorem join_group_shape_mv {L R : Type} (movedFrom : L → L) (l : L) (ms : List R) :
    (match ms with
      | [] => [(⟨l, none⟩ : JoinResult L R)]
      | ms => joinRows movedFrom l ms).length = max ms.length 1
  ∧ (match ms with
      | [] => [(⟨l, none⟩ : JoinResult L R)]
      | ms => joinRows movedFrom l ms).map
          (fun row : JoinResult L R => row.joined) =
        (match ms with
          | [] => [(none : Option R)]
          | ms => ms.map some)
  ∧ (match ms with
      | [] => [(⟨l, none⟩ : JoinResult L R)]
      | ms => joinRows movedFrom l ms).map
          (fun row : JoinResult L R => row.joined.isNone) =
        List.replicate (max ms.length 1) (decide (ms.length = 0))
  ∧ (match ms with
      | [] => [(⟨l, none⟩ : JoinResult L R)]
      | ms => joinRows movedFrom l ms).map (fun row : JoinResult L R => row.base) =
        moveIterates movedFrom l (max ms.length 1) := by
  cases ms with
  | nil => exact ⟨rfl, rfl, rfl, rfl⟩
  | cons m rest =>
    have hmax : max (m :: rest).length 1 = (m :: rest).length :=
      Nat.max_eq_left (Nat.succ_le_succ (Nat.zero_le _))
    have hdec : decide ((m :: rest).length = 0) = false := by simp
    obtain ⟨h1, h2, h3, h4⟩ := joinRows_shape movedFrom (m :: rest) l
    exact ⟨by rw [hmax]; exact h1, h2, by rw [hmax, hdec]; exact h3,
      by rw [hmax]; exact h4⟩

/-- Full shape of the selector-key join result: Σ max(m_i, 1) rows in
left-to-right order; a row's joined value is absent exactly when its left
element had no match; and the base column of each left element's group is the
element followed by the successive moved-from remnants the per-match moves
leave behind (so only each group's FIRST row is guaranteed to carry the left
element's value). -/
theorem join_selector_shape {L R K : Type} [DecidableEq K] (movedFrom : L → L)
    (right : List R) (left_key : L → K) (right_key : R → K) (left : List L) :
    ((joinSelector movedFrom right left_key right_key left).length =
      (left.map (fun l =>
        max (right.filter (fun r => right_key r = left_key l)).length 1)).sum)
  ∧ ((joinSelector movedFrom right left_key right_key left).map
        (fun row => row.joined.isNone) =
      left.flatMap (fun l => List.replicate
        (max (right.filter (fun r => right_key r = left_key l)).length 1)
        (decide ((right.filter (fun r => right_key r = left_key l)).length = 0))))
  ∧ ((joinSelector movedFrom right left_key right_key left).map
        (fun row => row.base) =
      left.flatMap (fun l => moveIterates movedFrom l
        (max (right.filter (fun r => right_key r = left_key l)).length 1))) := by
  refine ⟨?_, ?_, ?_⟩
  · rw [joinSelector_eq, List.length_flatMap]
    refine congrArg List.sum (List.map_congr_left (fun l _ => ?_))
    simpa [List.length_reverse] using
      (join_group_shape_mv movedFrom l
        ((right.filter (fun r => right_key r = left_key l)).reverse)).1
  · rw [joinSelector_eq, List.map_flatMap]
    refine flatMap_congr_left (fun l _ => ?_)
    simpa [List.length_reverse] using
      (join_group_shape_mv movedFrom l
        ((right.filter (fun r => right_key r = left_key l)).reverse)).2.2.1
  · rw [joinSelector_eq, List.map_flatMap]
    refine flatMap_congr_left (fun l _ => ?_)
    simpa [List.length_reverse] using
      (join_group_shape_mv movedFrom l
        ((right.filter (fun r => right_key r = left_key l)).reverse)).2.2.2

/-- The paired-KeyValue form satisfies the full multiplicity law: Σ max(m_i, 1)
rows; the base column lists each left element's payload in left order,
repeated max(m_i, 1) times; a row's joined value is absent exactly when its
left element had no match.  (SimpleJoinAdapter copies left_value.value at
every match, so its bases are unaffected by the move issue of the
selector-key form.) -/
theorem joinKV_multiplicity_law {K V1 V2 : Type} [DecidableEq K]
    (rightKV : List (KV K V2)) (leftKV : List (KV K V1)) :
    ((joinKV rightKV leftKV).length =
      (leftKV.map (fun l =>
        max (rightKV.filter (fun r => r.key = l.key)).length 1)).sum)
  ∧ ((joinKV rightKV leftKV).map (fun row => row.base) =
      leftKV.flatMap (fun l => List.replicate
        (max (rightKV.filter (fun r => r.key = l.key)).length 1) l.value))
  ∧ ((joinKV rightKV leftKV).map (fun row => row.joined.isNone) =
      leftKV.flatMap (fun l => List.replicate
        (max (rightKV.filter (fun r => r.key = l.key)).length 1)
        (decide ((rightKV.filter (fun r => r.key = l.key)).length = 0)))) := by
  refine ⟨?_, ?_, ?_⟩
  · rw [joinKV_eq, List.length_flatMap]
    refine congrArg List.sum (List.map_congr_left (fun l _ => ?_))
    simpa [List.length_reverse, List.length_map] using
      (join_group_shape l.value
        (((rightKV.filter (fun r => r.key = l.key)).map (fun r => r.value)).reverse)).1
  · rw [joinKV_eq, List.map_flatMap]
    refine flatMap_congr_left (fun l _ => ?_)
    simpa [List.length_reverse, List.length_map] using
      (join_group_shape l.value
        (((rightKV.filter (fun r => r.key = l.key)).map (fun r => r.value)).reverse)).2.1
  · rw [joinKV_eq, List.map_flatMap]
    refine flatMap_congr_left (fun l _ => ?_)
    simpa [List.length_reverse, List.length_map] using
      (join_group_shape l.value
        (((rightKV.filter (fun r => r.key = l.key)).map (fun r => r.value)).reverse)).2.2

/-- C1 failing input: the selector-key form over a move-destructive left
type.  Each row's base is moved out of the same left_value variable once per
match; movedFrom is constantly the empty string, as libstdc++'s string move
constructor always empties its source.  One left element bob with two right
matches yields the base column [bob, empty string], where the claim (and the
spec's JoinResult invariant, base duplicated across multiple right matches)
requires [bob, bob]. -/
theorem join_moved_from_base_failing_input :
    joinSelector (fun _ : String => "") [("bob", 10), ("bob", 20)]
        (fun l : String => l) (fun r : String × Nat => r.1) ["bob"] =
      [⟨"bob", some ("bob", 20)⟩, ⟨"", some ("bob", 10)⟩]
  ∧ (joinSelector (fun _ : String => "") [("bob", 10), ("bob", 20)]
        (fun l : String => l) (fun r : String × Nat => r.1) ["bob"]).map
        (fun row => row.base) ≠ ["bob", "bob"] := by
  constructor
  · decide
  · decide

/-- C7 counterexample: a left element with two right matches.  The left type
is a trivially copyable int, whose move is a copy, so movedFrom is the
identity and the bases are untouched.  The right sequence binds key 1 first
to 10 and then to 20; the claim as stated expects the rows (1,10),(1,20) in
right encounter order, but the code emits (1,20),(1,10). -/
theorem join_tie_order_counterexample :
    joinSelector (fun l : Nat => l) [(1, 10), (1, 20)] (fun l : Nat => l)
        (fun r : Nat × Nat => r.1) [1] =
      [⟨1, some (1, 20)⟩, ⟨1, some (1, 10)⟩]
  ∧ joinSelector (fun l : Nat => l) [(1, 10), (1, 20)] (fun l : Nat => l)
        (fun r : Nat × Nat => r.1) [1] ≠
      [⟨1, some (1, 10)⟩, ⟨1, some (1, 20)⟩] := by
  constructor
  · decide
  · decide

/-- C7 amended: within one left element's matches the joined values appear in
reverse right-side encounter order (libstdc++'s unordered_multimap links an
emplaced node in front of the nodes already bound to an equivalent key), for
every moved-from remnant behavior of the left element type. -/
theorem join_tie_order_reverse {L R K : Type} [DecidableEq K] (movedFrom : L → L)
    (right : List R) (left_key : L → K) (right_key : R → K) (left : List L) :
    (joinSelector movedFrom right left_key right_key left).map
        (fun row => row.joined) =
      left.flatMap (fun l =>
        match (right.filter (fun r => right_key r = left_key l)).reverse with
        | [] => [(none : Option R)]
        | ms => ms.map some) := by
  rw [joinSelector_eq, List.map_flatMap]
  refine flatMap_congr_left (fun l _ => ?_)
  exact (join_group_shape_mv movedFrom l
    ((right.filter (fun r => right_key r = left_key l)).reverse)).2.1

/-- What the aggregation fold binds to each key: nothing changes for a key
none of the elements maps to; otherwise the aggregator folded over exactly
the elements with that key, in input order, from the key's prior binding (or
the initial value). -/
theorem aggFold_apply {V K A : Type} [DecidableEq K] (initial_value : A)
    (aggregator : A → V → A) (key_selector : V → K) :
    ∀ (input : List V) (m0 : K → Option A) (k : K),
      (input.foldl (fun m v =>
        fun q => if q = key_selector v then
            some (aggregator ((m (key_selector v)).getD initial_value) v)
          else m q) m0) k =
        (match input.filter (fun v => key_selector v = k) with
          | [] => m0 k
          | l => some (l.foldl aggregator ((m0 k).getD initial_value))) := by
  intro input
  induction input with
  | nil => intro m0 k; simp
  | cons v rest ih =>
    intro m0 k
    simp only [List.foldl]
    rw [ih]
    by_cases h : key_selector v = k
    · subst h
      simp only [List.filter_cons, decide_True, if_pos rfl]
      cases hr : rest.filter (fun w => key_selector w = key_selector v) with
      | nil => simp [List.foldl]
      | cons w ws => simp [List.foldl]
    · have h2 : (decide (key_selector v = k)) = false := by simp [h]
      simp only [List.filter_cons, h2, if_neg (Ne.symm h)]
      cases hr : rest.filter (fun w => key_selector w = k) with
      | nil => simp [if_neg (Ne.symm h)]
      | cons w ws => simp [if_neg (Ne.symm h)]

/-- The string-branch aggregation loop, characterized like aggFold_apply:
the element itself is the key. -/
theorem aggFoldStr_apply {A : Type} (initial_value : A)
    (aggregator : A → String → A) :
    ∀ (input : List String) (m0 : String → Option A) (k : String),
      (input.foldl (fun m v =>
        fun q => if q = v then some (aggregator ((m v).getD initial_value) v)
          else m q) m0) k =
        (match input.filter (fun v => v = k) with
          | [] => m0 k
          | l => some (l.foldl aggregator ((m0 k).getD initial_value))) := by
  intro input
  induction input with
  | nil => intro m0 k; simp
  | cons v rest ih =>
    intro m0 k
    simp only [List.foldl]
    rw [ih]
    by_cases h : v = k
    · subst h
      simp only [List.filter_cons, decide_True, if_pos rfl]
      cases hr : rest.filter (fun w => w = v) with
      | nil => simp [List.foldl]
      | cons w ws => simp [List.foldl]
    · have h2 : (decide (v = k)) = false := by simp [h]
      simp only [List.filter_cons, h2, if_neg (Ne.symm h)]
      cases hr : rest.filter (fun w => w = k) with
      | nil => simp [if_neg (Ne.symm h)]
      | cons w ws => simp [if_neg (Ne.symm h)]

/-- What the seeding pass of the string branch binds: the initial value to
every key that occurs, nothing else changed. -/
theorem seedFold_apply {A : Type} (initial_value : A) :
    ∀ (input : List String) (m0 : String → Option A) (k : String),
      (input.foldl (fun m v => fun q => if q = v then some initial_value else m q)
          m0) k =
        if k ∈ input then some initial_value else m0 k := by
  intro input
  induction input with
  | nil => intro m0 k; simp
  | cons v rest ih =>
    intro m0 k
    simp only [List.foldl]
    rw [ih]
    by_cases h : k ∈ rest
    · simp [h]
    · by_cases h2 : k = v
      · simp [h, h2]
      · simp [h, h2, List.mem_cons]

theorem firstOccurrences_cons {K : Type} [DecidableEq K] (k : K) (ks : List K) :
    firstOccurrences (k :: ks) = k :: firstOccurrences (ks.filter (fun q => q ≠ k)) := by
  simp only [firstOccurrences]

theorem mem_firstOccurrences {K : Type} [DecidableEq K] :
    ∀ (l : List K) (a : K), a ∈ firstOccurrences l ↔ a ∈ l := by
  intro l
  induction l using firstOccurrences.induct with
  | case1 => intro a; simp [firstOccurrences]
  | case2 k ks ih =>
    intro a
    rw [firstOccurrences_cons]
    by_cases ha : a = k
    · simp [ha]
    · simp only [List.mem_cons, ih, List.mem_filter]
      simp [ha]

theorem nodup_firstOccurrences {K : Type} [DecidableEq K] :
    ∀ l : List K, (firstOccurrences l).Nodup := by
  intro l
  induction l using firstOccurrences.induct with
  | case1 => simp [firstOccurrences]
  | case2 k ks ih =>
    rw [firstOccurrences_cons]
    refine List.nodup_cons.mpr ⟨?_, ih⟩
    intro hk
    have := (mem_firstOccurrences _ k).mp hk
    simp at this

/-- The emission pass lists, for each not-yet-processed key in first-occurrence
order, the pair of the key and its binding in the aggregation map. -/
theorem emitPass_eq {V K A : Type} [DecidableEq K] (initial_value : A)
    (key_selector : V → K) (m : K → Option A) :
    ∀ (input : List V) (processed : List K),
      emitPass initial_value key_selector m input processed =
        (firstOccurrences ((input.map key_selector).filter
            (fun k => k ∉ processed))).map
          (fun k => (k, (m k).getD initial_value)) := by
  intro input
  induction input with
  | nil => intro processed; simp [emitPass, firstOccurrences]
  | cons v rest ih =>
    intro processed
    by_cases hmem : key_selector v ∈ processed
    · have hdec : (decide (key_selector v ∉ processed)) = false := by simp [hmem]
      simp only [emitPass, if_pos hmem, List.map_cons, List.filter_cons, hdec]
      exact ih processed
    · have hdec : (decide (key_selector v ∉ processed)) = true := by simp [hmem]
      simp only [emitPass, if_neg hmem, List.map_cons, List.filter_cons, hdec,
        if_true]
      rw [firstOccurrences_cons, List.map_cons, ih (key_selector v :: processed)]
      have hff : ((rest.map key_selector).filter (fun k => k ∉ processed)).filter
            (fun q => q ≠ key_selector v) =
          (rest.map key_selector).filter (fun k => k ∉ key_selector v :: processed) := by
        rw [List.filter_filter]
        refine List.filter_congr (fun a _ => ?_)
        by_cases h1 : a = key_selector v
        · simp [h1]
        · by_cases h2 : a ∈ processed <;> simp [h1, h2]
      rw [hff]

theorem map_fst_pairs {K A : Type} (h : K → A) :
    ∀ l : List K, (l.map (fun k => (k, h k))).map Prod.fst = l := by
  intro l
  induction l with
  | nil => rfl
  | cons k ks ih => simp [ih]

theorem count_foldl {V : Type} : ∀ (l : List V) (n : Nat),
    l.foldl (fun a _ => a + 1) n = n + l.length := by
  intro l
  induction l with
  | nil => intro n; simp
  | cons v rest ih => intro n; simp [List.foldl, ih]; omega

/-- C2: AggregateByKey emits each distinct input key exactly once, in
first-occurrence order, and nothing else; with the counting aggregator
(initial value 0, one increment per element) each key's emitted value is the
number of input elements bearing that key. -/
theorem aggregate_by_key_grouping_law {V K : Type} [DecidableEq K]
    (key_selector : V → K) (input : List V) :
    (∀ (A : Type) (initial_value : A) (aggregator : A → V → A),
        (aggregateByKey initial_value aggregator key_selector input).map Prod.fst =
          firstOccurrences (input.map key_selector))
  ∧ (firstOccurrences (input.map key_selector)).Nodup
  ∧ (∀ k : K, k ∈ firstOccurrences (input.map key_selector) ↔
        k ∈ input.map key_selector)
  ∧ (aggregateByKey (0 : Nat) (fun a _ => a + 1) key_selector input =
        (firstOccurrences (input.map key_selector)).map
          (fun k => (k, (input.filter (fun v => key_selector v = k)).length))) := by
  have hnofilter : (input.map key_selector).filter
      (fun k => k ∉ ([] : List K)) = input.map key_selector := by
    refine List.filter_eq_self.mpr (fun a _ => ?_)
    simp
  refine ⟨?_, nodup_firstOccurrences _, fun k => mem_firstOccurrences _ k, ?_⟩
  · intro A initial_value aggregator
    unfold aggregateByKey
    rw [emitPass_eq, hnofilter]
    exact map_fst_pairs _ _
  · unfold aggregateByKey
    rw [emitPass_eq, hnofilter]
    refine List.map_congr_left (fun k hk => ?_)
    have hk2 : k ∈ input.map key_selector := (mem_firstOccurrences _ k).mp hk
    obtain ⟨v, hv, hkv⟩ := List.mem_map.mp hk2
    have hvf : v ∈ input.filter (fun w => key_selector w = k) :=
      List.mem_filter.mpr ⟨hv, by simp [hkv]⟩
    have hchar := aggFold_apply (0 : Nat) (fun a _ => a + 1) key_selector input
      (fun _ => none) k
    cases hf : input.filter (fun w => key_selector w = k) with
    | nil => rw [hf] at hvf; cases hvf
    | cons w ws =>
      unfold aggPass
      rw [hchar, hf]
      simp [count_foldl, ← hf]

/-- C10: on a flow of strings AggregateByKey never invokes the supplied
key-selector - any two selectors give the same result - and each string
element serves as its own key: the string branch agrees with the generic
branch run with the identity selector. -/
theorem aggregate_strings_selector_independent {A K1 K2 : Type}
    (initial_value : A) (aggregator : A → String → A)
    (f : String → K1) (g : String → K2) (input : List String) :
    (aggregateByKeyOnStrings initial_value aggregator f input =
        aggregateByKeyOnStrings initial_value aggregator g input)
  ∧ (aggregateByKeyOnStrings initial_value aggregator f input =
        aggregateByKey initial_value aggregator (fun s => s) input) := by
  constructor
  · rfl
  · show aggregateByKeyStr initial_value aggregator input =
      aggregateByKey initial_value aggregator (fun s => s) input
    have hseed : ∀ k, seedPass initial_value input k =
        if k ∈ input then some initial_value else none := by
      intro k
      unfold seedPass
      simpa using seedFold_apply initial_value input (fun _ => none) k
    have hm : aggPassStr initial_value aggregator input =
        aggPass initial_value aggregator (fun s => s) input := by
      funext k
      unfold aggPassStr aggPass
      rw [aggFoldStr_apply initial_value aggregator input
        (seedPass initial_value input) k]
      rw [aggFold_apply initial_value aggregator (fun s : String => s) input
        (fun _ => none) k]
      rw [show (input.filter (fun v => (fun s : String => s) v = k)) =
        input.filter (fun v => v = k) from rfl]
      cases hf : input.filter (fun v => v = k) with
      | nil =>
        have hk : k ∉ input := by
          intro hk
          have : k ∈ input.filter (fun v => v = k) :=
            List.mem_filter.mpr ⟨hk, by simp⟩
          rw [hf] at this
          cases this
        simp [hseed k, hk]
      | cons w ws =>
        have hk : k ∈ input := by
          have : w ∈ input.filter (fun v => v = k) := by rw [hf]; simp
          have h2 := List.mem_filter.mp this
          have h3 : w = k := by simpa using h2.2
          exact h3 ▸ h2.1
        simp [hseed k, hk]
    unfold aggregateByKeyStr aggregateByKey
    rw [hm]

end AdapterLib
